import Mathlib

/-
Verification of the lexington regular-expression engine (lexington/regex.py),
a Brzozowski-derivative regex matcher.

Modelling conventions:
- A symbol is a pair of its domain (Text or Bytestring, per lexington.strings.string_type)
  and a numeric value (codepoint or byte). Python 3 semantics are used throughout:
  iterating a text string yields one-character strings (modelled as the codepoint with
  domain text), iterating a bytes object yields ints (modelled as the byte value with
  domain bytes). Equality between symbols of different domains is false, as in Python 3.
- Python's TypeError on mixed alphabets is Err.alphabetMismatch, a TypeError from
  regexify on an unconvertible value is Err.unsupportedType, and the ValueError of
  RepeatRegex.__init__ is Err.invalidRepeatCount. Fallible operations return
  Except Err Regex; raising an exception is modelled as returning .error.
- The frozenset of UnionRegex options is modelled as a duplicate-free list in insertion
  order. Structural equality of such lists is finer than Python's set equality (it sees
  the order), which is irrelevant for the facts proved here.
- The sentinels Null, Epsilon and Any are process-wide unique in the source, so the
  source's identity tests (`re is Null`, `prefix is Epsilon`) coincide with structural
  equality on every value the module itself can produce; they are modelled as
  structural comparisons with the corresponding constructor.
-/

deriving instance DecidableEq for Except

namespace Lexington

/-- Symbol domains: lexington.strings.Text and lexington.strings.Bytestring. -/
inductive Alphabet where
  | text
  | bytes
deriving DecidableEq, Repr

/-- A symbol: its domain (per string_type) together with its codepoint or byte value. -/
structure Sym where
  dom : Alphabet
  val : Nat
deriving DecidableEq, Repr

/-- Errors the module can raise. -/
inductive Err where
  | alphabetMismatch
  | unsupportedType
  | invalidRepeatCount
deriving DecidableEq, Repr

/-- The closed union of Regex subclasses in lexington/regex.py, one constructor per
class: NullRegex, EpsilonRegex, SymbolRegex, AnySymbolRegex, UnionRegex (options as a
duplicate-free list standing for the frozenset), ConcatRegex (p the prefix, q the
suffix), StarRegex, RepeatRegex. -/
inductive Regex where
  | NullRegex
  | EpsilonRegex
  | SymbolRegex (s : Sym)
  | AnySymbolRegex
  | UnionRegex (options : List Regex)
  | ConcatRegex (p q : Regex)
  | StarRegex (inner : Regex)
  | RepeatRegex (inner : Regex) (count : Nat)

mutual

/-- Structural equality of regexes, mirroring Regex.__eq__ (same class, equal fields). -/
def beqR : Regex → Regex → Bool
  | .NullRegex, .NullRegex => true
  | .EpsilonRegex, .EpsilonRegex => true
  | .SymbolRegex a, .SymbolRegex b => a == b
  | .AnySymbolRegex, .AnySymbolRegex => true
  | .UnionRegex l, .UnionRegex m => beqL l m
  | .ConcatRegex p q, .ConcatRegex u v => beqR p u && beqR q v
  | .StarRegex a, .StarRegex b => beqR a b
  | .RepeatRegex a c, .RepeatRegex b d => beqR a b && c == d
  | _, _ => false

def beqL : List Regex → List Regex → Bool
  | [], [] => true
  | a :: l, b :: m => beqR a b && beqL l m
  | _, _ => false

end

mutual

theorem beqR_refl : ∀ a : Regex, beqR a a = true
  | .NullRegex => rfl
  | .EpsilonRegex => rfl
  | .SymbolRegex a => by simp [beqR]
  | .AnySymbolRegex => rfl
  | .UnionRegex l => by simp [beqR, beqL_refl l]
  | .ConcatRegex p q => by simp [beqR, beqR_refl p, beqR_refl q]
  | .StarRegex a => by simp [beqR, beqR_refl a]
  | .RepeatRegex a c => by simp [beqR, beqR_refl a]

theorem beqL_refl : ∀ l : List Regex, beqL l l = true
  | [] => rfl
  | a :: l => by simp [beqL, beqR_refl a, beqL_refl l]

end

mutual

theorem beqR_eq : ∀ a b : Regex, beqR a b = true → a = b
  | .NullRegex, .NullRegex, _ => rfl
  | .EpsilonRegex, .EpsilonRegex, _ => rfl
  | .SymbolRegex a, .SymbolRegex b, h => by
      simp only [beqR, beq_iff_eq] at h; rw [h]
  | .AnySymbolRegex, .AnySymbolRegex, _ => rfl
  | .UnionRegex l, .UnionRegex m, h => by
      rw [beqL_eq l m h]
  | .ConcatRegex p q, .ConcatRegex u v, h => by
      simp only [beqR, Bool.and_eq_true] at h
      rw [beqR_eq p u h.1, beqR_eq q v h.2]
  | .StarRegex a, .StarRegex b, h => by
      rw [beqR_eq a b h]
  | .RepeatRegex a c, .RepeatRegex b d, h => by
      simp only [beqR, Bool.and_eq_true, beq_iff_eq] at h
      rw [beqR_eq a b h.1, h.2]

theorem beqL_eq : ∀ l m : List Regex, beqL l m = true → l = m
  | [], [], _ => rfl
  | a :: l, b :: m, h => by
      simp only [beqL, Bool.and_eq_true] at h
      rw [beqR_eq a b h.1, beqL_eq l m h.2]

end

instance : DecidableEq Regex := fun a b =>
  if h : beqR a b = true then .isTrue (beqR_eq a b h)
  else .isFalse (fun he => h (by rw [he]; exact beqR_refl b))

/-- Tests whether a value is a UnionRegex (isinstance(x, UnionRegex)). -/
def Regex.isUnion : Regex → Bool
  | .UnionRegex _ => true
  | _ => false

/-- Tests whether a value is a StarRegex (isinstance(x, StarRegex)). -/
def Regex.isStar : Regex → Bool
  | .StarRegex _ => true
  | _ => false

mutual

/-- The alphabet property of each variant (None = alphabet-independent): NullRegex,
EpsilonRegex and AnySymbolRegex are independent; SymbolRegex reports string_type(sym);
UnionRegex stores the first concrete alphabet among its options; ConcatRegex stores
alpha_pre if alpha_suf is None else alpha_suf; StarRegex and RepeatRegex delegate to
their inner regex. -/
def alphabet : Regex → Option Alphabet
  | .NullRegex => none
  | .EpsilonRegex => none
  | .SymbolRegex s => some s.dom
  | .AnySymbolRegex => none
  | .UnionRegex l => alphabetList l
  | .ConcatRegex p q =>
    match alphabet q with
    | none => alphabet p
    | some a => some a
  | .StarRegex r => alphabet r
  | .RepeatRegex r _ => alphabet r

def alphabetList : List Regex → Option Alphabet
  | [] => none
  | r :: rs =>
    match alphabet r with
    | some a => some a
    | none => alphabetList rs

end

mutual

/-- The accepts_empty_string property of each variant: False for NullRegex,
SymbolRegex, AnySymbolRegex and RepeatRegex (unconditionally), True for EpsilonRegex
and StarRegex, any() over the options for UnionRegex, and the conjunction of both
sides for ConcatRegex. -/
def aes : Regex → Bool
  | .NullRegex => false
  | .EpsilonRegex => true
  | .SymbolRegex _ => false
  | .AnySymbolRegex => false
  | .UnionRegex l => aesList l
  | .ConcatRegex p q => aes p && aes q
  | .StarRegex _ => true
  | .RepeatRegex _ _ => false

def aesList : List Regex → Bool
  | [] => false
  | r :: rs => aes r || aesList rs

end

/-- A Python value that the literal property can evaluate to: a text string (list of
codepoints), a bytes object (list of byte values), or an int (what a Python 3
SymbolRegex over a byte stores as its symbol). -/
inductive Lit where
  | text (cs : List Nat)
  | bytestr (bs : List Nat)
  | byte (n : Nat)
deriving DecidableEq, Repr

/-- The literal of a SymbolRegex is its symbol itself (SymbolRegex.literal returns
self.sym): a one-character text string for a text symbol, a Python 3 int for a byte. -/
def symLit (s : Sym) : Lit :=
  match s.dom with
  | .text => .text [s.val]
  | .bytes => .byte s.val

/-- Python truthiness of a literal value: empty strings and the int 0 are falsy. -/
def litTruthy : Lit → Bool
  | .text cs => !cs.isEmpty
  | .bytestr bs => !bs.isEmpty
  | .byte n => !decide (n = 0)

/-- Python + on two literal values: concatenation on strings, addition on ints.
Mixing the two kinds raises a TypeError in Python; that case is modelled as none
(it is unreachable through the alphabet-checked constructors). -/
def litAdd : Lit → Lit → Option Lit
  | .text a, .text b => some (.text (a ++ b))
  | .bytestr a, .bytestr b => some (.bytestr (a ++ b))
  | .byte a, .byte b => some (.byte (a + b))
  | _, _ => none

/-- The literal property: SymbolRegex returns its symbol; ConcatRegex returns
prefix.literal + suffix.literal when both are truthy and None otherwise; every other
variant (including EpsilonRegex) inherits Regex.literal, which is None. -/
def literal : Regex → Option Lit
  | .SymbolRegex s => some (symLit s)
  | .ConcatRegex p q =>
    match literal p, literal q with
    | some a, some b => if litTruthy a && litTruthy b then litAdd a b else none
    | _, _ => none
  | _ => none

/-- A Python value passed to the public constructors: an existing Regex, a text or
bytes string (its symbols listed in order), a single symbol (a lone Python 3 byte, or
equivalently a one-character string), or any other object (which regexify rejects). -/
inductive RegexInput where
  | re (r : Regex)
  | str (d : Alphabet) (syms : List Nat)
  | chr (s : Sym)
  | other
deriving DecidableEq

/-- The regexes contained in an input (used to state closure properties). -/
def inputRegexes : RegexInput → List Regex
  | .re r => [r]
  | _ => []

/-- ConcatRegex.__init__: faithfully reproduces the source's alphabet logic, including
its actual behaviour of raising whenever exactly one operand has a concrete alphabet
(the code checks `alpha_pre is not alpha_suf` whenever either is non-None). -/
def mkConcat (p q : Regex) : Except Err Regex :=
  if alphabet p ≠ none ∨ alphabet q ≠ none then
    if alphabet p ≠ alphabet q then .error .alphabetMismatch
    else .ok (.ConcatRegex p q)
  else .ok (.ConcatRegex p q)

/-- UnionRegex.__init__'s loop over the options: tracks the first concrete alphabet
seen and raises on any later, different concrete alphabet. -/
def alphaScan : List Regex → Option Alphabet → Except Err (Option Alphabet)
  | [], a => .ok a
  | r :: rs, a =>
    match alphabet r, a with
    | none, _ => alphaScan rs a
    | some b, none => alphaScan rs (some b)
    | some b, some c => if b = c then alphaScan rs (some c) else .error .alphabetMismatch

/-- UnionRegex.__init__: checks the options' alphabets, then stores the option set
(already deduplicated by the caller). -/
def mkUnion (l : List Regex) : Except Err Regex :=
  match alphaScan l none with
  | .error e => .error e
  | .ok _ => .ok (.UnionRegex l)

/-- The core of the concat constructor once both arguments are already regexes:
Null is absorbing, Epsilon is the identity, otherwise ConcatRegex is built. -/
def concatR (p q : Regex) : Except Err Regex :=
  if p = .NullRegex ∨ q = .NullRegex then .ok .NullRegex
  else if p = .EpsilonRegex then .ok q
  else if q = .EpsilonRegex then .ok p
  else mkConcat p q

/-- The n >= 3 loop of join, specialised to regex elements (as used by regexify):
xs holds the elements from next-to-last down to first, f is the running result;
the loop breaks early the moment the running result is Null. -/
def joinGoR : List Regex → Regex → Except Err Regex
  | [], f => .ok f
  | x :: rest, f =>
    match concatR x f with
    | .error e => .error e
    | .ok f2 => if f2 = .NullRegex then .ok .NullRegex else joinGoR rest f2

/-- join for a list of regexes (the form regexify uses: join(SymbolRegex(sym) ...)):
two elements concat, one element is returned as-is, zero yields Epsilon, three or
more run the right-to-left fold with early exit on Null. -/
def joinR (l : List Regex) : Except Err Regex :=
  match l with
  | [a, b] => concatR a b
  | [a] => .ok a
  | [] => .ok .EpsilonRegex
  | _ =>
    match l.reverse with
    | last :: restRev => joinGoR restRev last
    | [] => .ok .EpsilonRegex

/-- regexify: a Regex is returned unchanged; an empty string becomes Epsilon; a
non-empty string becomes join(SymbolRegex(sym) for sym in it); a single symbol becomes
SymbolRegex; anything else raises a TypeError. -/
def regexify : RegexInput → Except Err Regex
  | .re r => .ok r
  | .str d syms =>
    if syms.isEmpty then .ok .EpsilonRegex
    else joinR (syms.map (fun v => .SymbolRegex ⟨d, v⟩))
  | .chr s => .ok (.SymbolRegex s)
  | .other => .error .unsupportedType

/-- The public concat: regexify both arguments, then apply the Null/Epsilon
collapses, else build a ConcatRegex. -/
def concatS (a b : RegexInput) : Except Err Regex :=
  match regexify a with
  | .error e => .error e
  | .ok p =>
    match regexify b with
    | .error e => .error e
    | .ok q => concatR p q

/-- The n >= 3 loop of the public join: the accumulator starts as the raw last
element and is regexified by the first concat call. -/
def joinGoS : List RegexInput → RegexInput → Except Err Regex
  | [], f => regexify f
  | x :: rest, f =>
    match concatS x f with
    | .error e => .error e
    | .ok f2 => if f2 = .NullRegex then .ok .NullRegex else joinGoS rest (.re f2)

/-- The public join over arbitrary inputs. -/
def joinS (l : List RegexInput) : Except Err Regex :=
  match l with
  | [a, b] => concatS a b
  | [a] => regexify a
  | [] => .ok .EpsilonRegex
  | _ =>
    match l.reverse with
    | last :: restRev => joinGoS restRev last
    | [] => .ok .EpsilonRegex

/-- Insertion into the working set of union options (s.add(regex)): a no-op when a
structurally equal member is already present. -/
def setInsert (s : List Regex) (r : Regex) : List Regex :=
  if r ∈ s then s else s ++ [r]

/-- s.update(options): inserts every member of a union's option set. -/
def setUpdate : List Regex → List Regex → List Regex
  | s, [] => s
  | s, r :: rs => setUpdate (setInsert s r) rs

/-- One iteration of union's loop: a UnionRegex argument is flattened into the set;
any other argument is regexified (which can raise) and added unless it is Null. -/
def collectOne (s : List Regex) (i : RegexInput) : Except Err (List Regex) :=
  match i with
  | .re (.UnionRegex opts) => .ok (setUpdate s opts)
  | _ =>
    match regexify i with
    | .error e => .error e
    | .ok r => .ok (if r = .NullRegex then s else setInsert s r)

/-- union's loop over all arguments, building the deduplicated option set. -/
def unionCollect : List RegexInput → List Regex → Except Err (List Regex)
  | [], s => .ok s
  | i :: rest, s =>
    match collectOne s i with
    | .error e => .error e
    | .ok s2 => unionCollect rest s2

/-- The public union: collect the option set, then return Null if it is empty, its
sole member if it is a singleton, else a UnionRegex over it. -/
def unionS (options : List RegexInput) : Except Err Regex :=
  match unionCollect options [] with
  | .error e => .error e
  | .ok [] => .ok .NullRegex
  | .ok [r] => .ok r
  | .ok s => mkUnion s

/-- Identifies which return branch of union is taken: true exactly when the final
UnionRegex(s) branch runs. In the source that branch constructs a brand-new object,
so its result is never identity-equal (Python `is`) to any pre-existing value; the
Null branch and the s.pop() branch return already-existing objects. -/
def unionFresh (options : List RegexInput) : Bool :=
  match unionCollect options [] with
  | .ok s => decide (2 ≤ s.length)
  | .error _ => false

/-- The public star: Epsilon and Null both collapse to Epsilon, an existing StarRegex
is returned unchanged, anything else is regexified and wrapped. -/
def starS (i : RegexInput) : Except Err Regex :=
  match i with
  | .re .EpsilonRegex => .ok .EpsilonRegex
  | .re .NullRegex => .ok .EpsilonRegex
  | .re (.StarRegex r) => .ok (.StarRegex r)
  | _ =>
    match regexify i with
    | .error e => .error e
    | .ok r => .ok (.StarRegex r)

/-- RepeatRegex.__init__: raises ValueError("Repeat must be greater than 1") when
count < 2, else stores the regex and the count. -/
def mkRepeat (r : Regex) (count : Int) : Except Err Regex :=
  if count < 2 then .error .invalidRepeatCount
  else .ok (.RepeatRegex r count.toNat)

/-- The public repeat specialised to an argument that is already a Regex (the form
used by RepeatRegex.derive's internal call and by the repeat-specific claims):
count 0 gives Epsilon, count 1 returns the argument itself, the Epsilon and Null
sentinels collapse, anything else is wrapped in RepeatRegex (whose constructor
rejects counts below 2). The count is an integer and may be negative. -/
def repeatS (r : Regex) (count : Int) : Except Err Regex :=
  if count = 0 then .ok .EpsilonRegex
  else if count = 1 then .ok r
  else if r = .EpsilonRegex then .ok .EpsilonRegex
  else if r = .NullRegex then .ok .NullRegex
  else mkRepeat r count

/-- The public repeat on an arbitrary Python argument. Count 1 returns the argument
itself unconverted - for a raw string no regex value is produced by that call, which
is why the result is a RegexInput. The Epsilon/Null collapses are identity checks
against the sentinels, so a raw string never matches them: repeat("", count) with
count outside 0 and 1 falls through to RepeatRegex(regexify("")), i.e.
RepeatRegex(Epsilon, count). On an argument that is already a Regex this agrees with
repeatS. -/
def repeatP (i : RegexInput) (count : Int) : Except Err RegexInput :=
  if count = 0 then .ok (.re .EpsilonRegex)
  else if count = 1 then .ok i
  else if i = .re .EpsilonRegex then .ok (.re .EpsilonRegex)
  else if i = .re .NullRegex then .ok (.re .NullRegex)
  else
    match regexify i with
    | .error e => .error e
    | .ok r =>
      match mkRepeat r count with
      | .error e => .error e
      | .ok rep => .ok (.re rep)

mutual

/-- The derivative of each variant with respect to one symbol:
NullRegex.derive returns self, EpsilonRegex.derive returns Null, SymbolRegex.derive
returns Epsilon on its own symbol and Null otherwise, AnySymbolRegex.derive returns
Epsilon, UnionRegex.derive is union over the options' derivatives, ConcatRegex.derive
is union(concat(p', q), q') when the prefix accepts the empty string and
concat(p', q) otherwise, StarRegex.derive is concat(inner', self), and
RepeatRegex.derive is concat(inner', repeat(inner, count - 1)). The smart
constructors invoked here can raise, so derivation is fallible. -/
def derive : Regex → Sym → Except Err Regex
  | .NullRegex, _ => .ok .NullRegex
  | .EpsilonRegex, _ => .ok .NullRegex
  | .SymbolRegex t, a => .ok (if a = t then .EpsilonRegex else .NullRegex)
  | .AnySymbolRegex, _ => .ok .EpsilonRegex
  | .UnionRegex l, a =>
    match deriveList l a with
    | .error e => .error e
    | .ok ds => unionS (ds.map RegexInput.re)
  | .ConcatRegex p q, a =>
    if aes p then
      match derive p a with
      | .error e => .error e
      | .ok dp =>
        match concatR dp q with
        | .error e => .error e
        | .ok c =>
          match derive q a with
          | .error e => .error e
          | .ok dq => unionS [.re c, .re dq]
    else
      match derive p a with
      | .error e => .error e
      | .ok dp => concatR dp q
  | .StarRegex r, a =>
    match derive r a with
    | .error e => .error e
    | .ok d => concatR d (.StarRegex r)
  | .RepeatRegex r c, a =>
    match derive r a with
    | .error e => .error e
    | .ok d =>
      match repeatS r ((c : Int) - 1) with
      | .error e => .error e
      | .ok rep => concatR d rep

/-- Derivatives of a union's options, in order, stopping at the first error. -/
def deriveList : List Regex → Sym → Except Err (List Regex)
  | [], _ => .ok []
  | r :: rs, a =>
    match derive r a with
    | .error e => .error e
    | .ok d =>
      match deriveList rs a with
      | .error e => .error e
      | .ok ds => .ok (d :: ds)

end

/-- Regex.match: fold the derivative across the input, returning False the moment
the running regex is the Null sentinel, and test accepts_empty_string at the end. -/
def matchRe : Regex → List Sym → Except Err Bool
  | r, [] => .ok (aes r)
  | r, a :: rest =>
    match derive r a with
    | .error e => .error e
    | .ok r2 => if r2 = .NullRegex then .ok false else matchRe r2 rest

/-- Modelled from the spec: the non-short-circuited reference matcher, which derives
by every symbol of the input in order with no early exit and then tests
accepts_empty_string. -/
def matchFold : Regex → List Sym → Except Err Bool
  | r, [] => .ok (aes r)
  | r, a :: rest =>
    match derive r a with
    | .error e => .error e
    | .ok r2 => matchFold r2 rest

/-- A duplicate-free list (the list faithfully represents a set). -/
def nodupB : List Regex → Bool
  | [] => true
  | r :: rs => !decide (r ∈ rs) && nodupB rs

/-- An admissible member of a canonical union's option set: not itself a union and
not Null. -/
def goodMember (r : Regex) : Bool :=
  !r.isUnion && !decide (r = Regex.NullRegex)

mutual

/-- The canonical-form invariant, at every node of the tree: a union has at least two
options, no duplicates, and no union or Null member; a concatenation has neither
Epsilon nor Null operands; a star's inner regex is not a star; a repetition's count
is at least 2. -/
def canonical : Regex → Bool
  | .UnionRegex l =>
    decide (2 ≤ l.length) && l.all goodMember && nodupB l && canonList l
  | .ConcatRegex p q =>
    !decide (p = Regex.EpsilonRegex) && !decide (p = Regex.NullRegex) &&
    !decide (q = Regex.EpsilonRegex) && !decide (q = Regex.NullRegex) &&
    canonical p && canonical q
  | .StarRegex r => !r.isStar && canonical r
  | .RepeatRegex r c => decide (2 ≤ c) && canonical r
  | _ => true

def canonList : List Regex → Bool
  | [] => true
  | r :: rs => canonical r && canonList rs

end

/-- The values reachable through the module's public surface: the exported sentinels,
every successful result of the public constructors applied to inputs whose regex
components are themselves reachable, and every successful derivative of a reachable
value. -/
inductive Produced : Regex → Prop where
  | sentinelNull : Produced .NullRegex
  | sentinelEpsilon : Produced .EpsilonRegex
  | sentinelAny : Produced .AnySymbolRegex
  | ofRegexify (i : RegexInput) (r : Regex) :
      (∀ x ∈ inputRegexes i, Produced x) → regexify i = .ok r → Produced r
  | ofUnion (l : List RegexInput) (r : Regex) :
      (∀ i ∈ l, ∀ x ∈ inputRegexes i, Produced x) → unionS l = .ok r → Produced r
  | ofConcat (a b : RegexInput) (r : Regex) :
      (∀ x ∈ inputRegexes a, Produced x) → (∀ x ∈ inputRegexes b, Produced x) →
      concatS a b = .ok r → Produced r
  | ofJoin (l : List RegexInput) (r : Regex) :
      (∀ i ∈ l, ∀ x ∈ inputRegexes i, Produced x) → joinS l = .ok r → Produced r
  | ofStar (i : RegexInput) (r : Regex) :
      (∀ x ∈ inputRegexes i, Produced x) → starS i = .ok r → Produced r
  | ofRepeat (i : RegexInput) (c : Int) (r : Regex) :
      (∀ x ∈ inputRegexes i, Produced x) → repeatP i c = .ok (.re r) → Produced r
  | ofDerive (x : Regex) (a : Sym) (r : Regex) :
      Produced x → derive x a = .ok r → Produced r

/-! Matcher refinement: the early-exit matcher agrees with the reference fold. -/

theorem matchFold_null : ∀ s, matchFold Regex.NullRegex s = .ok false
  | [] => rfl
  | _ :: s => matchFold_null s

theorem matchRe_eq_matchFold : ∀ (s : List Sym) (r : Regex), matchRe r s = matchFold r s
  | [], _ => rfl
  | a :: s, r => by
    simp only [matchRe, matchFold]
    cases hd : derive r a with
    | error e => rfl
    | ok r2 =>
      by_cases hn : r2 = Regex.NullRegex
      · subst hn
        simp [matchFold_null s]
      · simp only [if_neg hn]
        exact matchRe_eq_matchFold s r2

/-! Set-as-list lemmas for union's working set. -/

theorem nodupB_cons {r : Regex} {rs : List Regex} :
    nodupB (r :: rs) = true ↔ r ∉ rs ∧ nodupB rs = true := by
  simp [nodupB]

theorem setInsert_mem {s : List Regex} {r x : Regex} :
    x ∈ setInsert s r ↔ x ∈ s ∨ x = r := by
  unfold setInsert
  split
  · next hm =>
      constructor
      · exact fun h => Or.inl h
      · rintro (h | rfl)
        · exact h
        · exact hm
  · simp

theorem nodupB_append_singleton :
    ∀ {s : List Regex} {r : Regex}, r ∉ s → nodupB s = true → nodupB (s ++ [r]) = true
  | [], r, _, _ => by simp [nodupB]
  | a :: s, r, hn, hd => by
    rw [List.cons_append, nodupB_cons]
    rw [nodupB_cons] at hd
    refine ⟨?_, nodupB_append_singleton (fun h => hn (List.mem_cons_of_mem a h)) hd.2⟩
    intro hmem
    rcases List.mem_append.mp hmem with h | h
    · exact hd.1 h
    · rcases List.mem_singleton.mp h with rfl
      exact hn (List.mem_cons_self a s)

theorem setInsert_nodup {s : List Regex} {r : Regex} (h : nodupB s = true) :
    nodupB (setInsert s r) = true := by
  unfold setInsert
  split
  · exact h
  · next hm => exact nodupB_append_singleton hm h

theorem setInsert_forall {P : Regex → Prop} {s : List Regex} {r : Regex}
    (hs : ∀ x ∈ s, P x) (hr : P r) : ∀ x ∈ setInsert s r, P x := by
  intro x hx
  rcases setInsert_mem.mp hx with h | rfl
  · exact hs x h
  · exact hr

theorem setUpdate_nodup : ∀ (l s : List Regex), nodupB s = true → nodupB (setUpdate s l) = true
  | [], _, h => h
  | r :: rs, s, h => setUpdate_nodup rs (setInsert s r) (setInsert_nodup h)

theorem setUpdate_forall {P : Regex → Prop} :
    ∀ (l s : List Regex), (∀ x ∈ s, P x) → (∀ x ∈ l, P x) → ∀ x ∈ setUpdate s l, P x
  | [], _, hs, _ => hs
  | r :: rs, s, hs, hl =>
    setUpdate_forall rs (setInsert s r)
      (setInsert_forall hs (hl r (List.mem_cons_self r rs)))
      (fun x hx => hl x (List.mem_cons_of_mem r hx))

theorem setUpdate_append :
    ∀ (l s : List Regex), nodupB l = true → (∀ x ∈ l, x ∉ s) → setUpdate s l = s ++ l
  | [], s, _, _ => by simp [setUpdate]
  | r :: rs, s, hnd, hdis => by
    rw [nodupB_cons] at hnd
    rw [setUpdate]
    rw [show setInsert s r = s ++ [r] by
      unfold setInsert
      rw [if_neg (hdis r (List.mem_cons_self r rs))]]
    rw [setUpdate_append rs (s ++ [r]) hnd.2 ?_]
    · simp
    · intro x hx hmem
      rcases List.mem_append.mp hmem with h | h
      · exact hdis x (List.mem_cons_of_mem r hx) h
      · rcases List.mem_singleton.mp h with rfl
        exact hnd.1 hx

theorem setUpdate_of_subset :
    ∀ (l s : List Regex), (∀ x ∈ l, x ∈ s) → setUpdate s l = s
  | [], _, _ => rfl
  | r :: rs, s, h => by
    rw [setUpdate]
    rw [show setInsert s r = s by
      unfold setInsert
      rw [if_pos (h r (List.mem_cons_self r rs))]]
    exact setUpdate_of_subset rs s (fun x hx => h x (List.mem_cons_of_mem r hx))

/-! Canonical-form preservation through every constructor and through derivation. -/

theorem canonList_iff : ∀ (l : List Regex), canonList l = true ↔ ∀ x ∈ l, canonical x = true
  | [] => by simp [canonList]
  | r :: rs => by
    simp only [canonList, Bool.and_eq_true]
    rw [canonList_iff rs]
    constructor
    · rintro ⟨h1, h2⟩ x hx
      rcases List.mem_cons.mp hx with rfl | hx
      · exact h1
      · exact h2 x hx
    · intro h
      exact ⟨h r (List.mem_cons_self r rs), fun x hx => h x (List.mem_cons_of_mem r hx)⟩

theorem concatR_canonical {p q r : Regex} (hp : canonical p = true) (hq : canonical q = true)
    (h : concatR p q = .ok r) : canonical r = true := by
  unfold concatR at h
  split at h
  · cases h; rfl
  · next hne =>
    split at h
    · next hpe => cases h; exact hq
    · next hpe =>
      split at h
      · next hqe => cases h; exact hp
      · next hqe =>
        unfold mkConcat at h
        push_neg at hne
        split at h
        · split at h
          · simp at h
          · cases h
            simp [canonical, hp, hq, hne.1, hne.2, hpe, hqe]
        · cases h
          simp [canonical, hp, hq, hne.1, hne.2, hpe, hqe]

theorem concatR_shape {p q r : Regex} (h : concatR p q = .ok r) :
    r = .NullRegex ∨ r = q ∨ r = p ∨ r = .ConcatRegex p q := by
  unfold concatR mkConcat at h
  split at h
  · cases h; exact Or.inl rfl
  · split at h
    · cases h; exact Or.inr (Or.inl rfl)
    · split at h
      · cases h; exact Or.inr (Or.inr (Or.inl rfl))
      · split at h
        · split at h
          · simp at h
          · cases h; exact Or.inr (Or.inr (Or.inr rfl))
        · cases h; exact Or.inr (Or.inr (Or.inr rfl))

theorem concatR_not_union {p q r : Regex} (hp : p.isUnion = false) (hq : q.isUnion = false)
    (h : concatR p q = .ok r) : r.isUnion = false := by
  rcases concatR_shape h with rfl | rfl | rfl | rfl
  · rfl
  · exact hq
  · exact hp
  · rfl

theorem concatR_not_star {p q r : Regex} (hp : p.isStar = false) (hq : q.isStar = false)
    (h : concatR p q = .ok r) : r.isStar = false := by
  rcases concatR_shape h with rfl | rfl | rfl | rfl
  · rfl
  · exact hq
  · exact hp
  · rfl

theorem joinGoR_props :
    ∀ (xs : List Regex) (f r : Regex),
      (∀ x ∈ xs, canonical x = true ∧ x.isUnion = false ∧ x.isStar = false) →
      canonical f = true → f.isUnion = false → f.isStar = false →
      joinGoR xs f = .ok r →
      canonical r = true ∧ r.isUnion = false ∧ r.isStar = false
  | [], f, r, _, hc, hu, hs, h => by cases h; exact ⟨hc, hu, hs⟩
  | x :: rest, f, r, hxs, hc, hu, hs, h => by
    simp only [joinGoR] at h
    split at h
    · simp at h
    · next f2 hcc =>
      obtain ⟨hx1, hx2, hx3⟩ := hxs x (List.mem_cons_self x rest)
      have hf2c := concatR_canonical hx1 hc hcc
      have hf2u := concatR_not_union hx2 hu hcc
      have hf2s := concatR_not_star hx3 hs hcc
      split at h
      · cases h; exact ⟨rfl, rfl, rfl⟩
      · exact joinGoR_props rest f2 r (fun y hy => hxs y (List.mem_cons_of_mem x hy))
          hf2c hf2u hf2s h

theorem joinR_props :
    ∀ (l : List Regex) (r : Regex),
      (∀ x ∈ l, canonical x = true ∧ x.isUnion = false ∧ x.isStar = false) →
      joinR l = .ok r →
      canonical r = true ∧ r.isUnion = false ∧ r.isStar = false
  | [a, b], r, hl, h => by
    simp only [joinR] at h
    obtain ⟨ha1, ha2, ha3⟩ := hl a (by simp)
    obtain ⟨hb1, hb2, hb3⟩ := hl b (by simp)
    exact ⟨concatR_canonical ha1 hb1 h, concatR_not_union ha2 hb2 h,
      concatR_not_star ha3 hb3 h⟩
  | [a], r, hl, h => by cases h; exact hl a (by simp)
  | [], r, _, h => by cases h; exact ⟨rfl, rfl, rfl⟩
  | a :: b :: c :: t, r, hl, h => by
    simp only [joinR] at h
    cases hrev : (a :: b :: c :: t).reverse with
    | nil => simp at hrev
    | cons last restRev =>
      rw [hrev] at h
      have hmem : ∀ x ∈ last :: restRev, x ∈ a :: b :: c :: t := by
        intro x hx
        rw [← List.mem_reverse, hrev]
        exact hx
      exact joinGoR_props restRev last r
        (fun y hy => hl y (hmem y (List.mem_cons_of_mem last hy)))
        (hl last (hmem last (List.mem_cons_self last restRev))).1
        (hl last (hmem last (List.mem_cons_self last restRev))).2.1
        (hl last (hmem last (List.mem_cons_self last restRev))).2.2
        h

theorem regexify_canonical {i : RegexInput} {r : Regex}
    (hi : ∀ x ∈ inputRegexes i, canonical x = true) (h : regexify i = .ok r) :
    canonical r = true := by
  cases i with
  | re x =>
    simp only [regexify, Except.ok.injEq] at h
    subst h
    exact hi _ (by simp [inputRegexes])
  | str d syms =>
    simp only [regexify] at h
    split at h
    · cases h; rfl
    · refine (joinR_props _ r ?_ h).1
      intro x hx
      rcases List.mem_map.mp hx with ⟨v, _, rfl⟩
      exact ⟨rfl, rfl, rfl⟩
  | chr s => cases h; rfl
  | other => simp [regexify] at h

theorem regexify_str_shape {d : Alphabet} {syms : List Nat} {r : Regex}
    (h : regexify (.str d syms) = .ok r) : r.isUnion = false ∧ r.isStar = false := by
  simp only [regexify] at h
  split at h
  · cases h; exact ⟨rfl, rfl⟩
  · have hp := joinR_props _ r ?_ h
    · exact ⟨hp.2.1, hp.2.2⟩
    · intro x hx
      rcases List.mem_map.mp hx with ⟨v, _, rfl⟩
      exact ⟨rfl, rfl, rfl⟩

theorem concatS_canonical {a b : RegexInput} {r : Regex}
    (ha : ∀ x ∈ inputRegexes a, canonical x = true)
    (hb : ∀ x ∈ inputRegexes b, canonical x = true)
    (h : concatS a b = .ok r) : canonical r = true := by
  unfold concatS at h
  split at h
  · simp at h
  · next p hra =>
    split at h
    · simp at h
    · next q hrb =>
      exact concatR_canonical (regexify_canonical ha hra) (regexify_canonical hb hrb) h

theorem joinGoS_canonical :
    ∀ (xs : List RegexInput) (f : RegexInput) (r : Regex),
      (∀ i ∈ xs, ∀ x ∈ inputRegexes i, canonical x = true) →
      (∀ x ∈ inputRegexes f, canonical x = true) →
      joinGoS xs f = .ok r → canonical r = true
  | [], f, r, _, hf, h => regexify_canonical hf h
  | x :: rest, f, r, hxs, hf, h => by
    simp only [joinGoS] at h
    split at h
    · simp at h
    · next f2 hcc =>
      have hf2 : canonical f2 = true :=
        concatS_canonical (hxs x (List.mem_cons_self x rest)) hf hcc
      split at h
      · cases h; rfl
      · exact joinGoS_canonical rest (.re f2) r
          (fun i hi => hxs i (List.mem_cons_of_mem x hi))
          (by intro y hy
              simp only [inputRegexes, List.mem_singleton] at hy
              subst hy
              exact hf2) h

theorem joinS_canonical :
    ∀ (l : List RegexInput) (r : Regex),
      (∀ i ∈ l, ∀ x ∈ inputRegexes i, canonical x = true) →
      joinS l = .ok r → canonical r = true
  | [a, b], r, hl, h => by
    simp only [joinS] at h
    exact concatS_canonical (hl a (by simp)) (hl b (by simp)) h
  | [a], r, hl, h => regexify_canonical (hl a (by simp)) h
  | [], r, _, h => by cases h; rfl
  | a :: b :: c :: t, r, hl, h => by
    simp only [joinS] at h
    cases hrev : (a :: b :: c :: t).reverse with
    | nil => simp at hrev
    | cons last restRev =>
      rw [hrev] at h
      have hmem : ∀ x ∈ last :: restRev, x ∈ a :: b :: c :: t := by
        intro x hx
        rw [← List.mem_reverse, hrev]
        exact hx
      exact joinGoS_canonical restRev last r
        (fun i hi => hl i (hmem i (List.mem_cons_of_mem last hi)))
        (hl last (hmem last (List.mem_cons_self last restRev)))
        h

theorem collectInsert_good {s : List Regex} {r : Regex}
    (hnd : nodupB s = true) (hgood : ∀ x ∈ s, canonical x = true ∧ goodMember x = true)
    (hc : canonical r = true) (hu : r.isUnion = false) :
    nodupB (if r = Regex.NullRegex then s else setInsert s r) = true ∧
      ∀ x ∈ (if r = Regex.NullRegex then s else setInsert s r),
        canonical x = true ∧ goodMember x = true := by
  split
  · exact ⟨hnd, hgood⟩
  · next hn =>
    refine ⟨setInsert_nodup hnd, setInsert_forall hgood ⟨hc, ?_⟩⟩
    simp [goodMember, hu, hn]

theorem collectOne_good {s : List Regex} {i : RegexInput} {s2 : List Regex}
    (hnd : nodupB s = true) (hgood : ∀ x ∈ s, canonical x = true ∧ goodMember x = true)
    (hi : ∀ x ∈ inputRegexes i, canonical x = true)
    (h : collectOne s i = .ok s2) :
    nodupB s2 = true ∧ ∀ x ∈ s2, canonical x = true ∧ goodMember x = true := by
  cases i with
  | re x =>
    have hx : canonical x = true := hi x (by simp [inputRegexes])
    cases x with
    | UnionRegex opts =>
      cases h
      simp only [canonical, Bool.and_eq_true, List.all_eq_true] at hx
      refine ⟨setUpdate_nodup opts s hnd, setUpdate_forall opts s hgood ?_⟩
      intro y hy
      exact ⟨(canonList_iff opts).mp hx.2 y hy, hx.1.1.2 y hy⟩
    | NullRegex => cases h; exact ⟨hnd, hgood⟩
    | EpsilonRegex => cases h; exact collectInsert_good hnd hgood hx rfl
    | SymbolRegex t => cases h; exact collectInsert_good hnd hgood hx rfl
    | AnySymbolRegex => cases h; exact collectInsert_good hnd hgood hx rfl
    | ConcatRegex p q => cases h; exact collectInsert_good hnd hgood hx rfl
    | StarRegex y => cases h; exact collectInsert_good hnd hgood hx rfl
    | RepeatRegex y c => cases h; exact collectInsert_good hnd hgood hx rfl
  | str d syms =>
    simp only [collectOne] at h
    split at h
    · simp at h
    · next rr hre =>
      cases h
      exact collectInsert_good hnd hgood (regexify_canonical (by simp [inputRegexes]) hre)
        (regexify_str_shape hre).1
  | chr t => cases h; exact collectInsert_good hnd hgood rfl rfl
  | other => simp [collectOne, regexify] at h

theorem unionCollect_good :
    ∀ (inputs : List RegexInput) (s s2 : List Regex),
      nodupB s = true → (∀ x ∈ s, canonical x = true ∧ goodMember x = true) →
      (∀ i ∈ inputs, ∀ x ∈ inputRegexes i, canonical x = true) →
      unionCollect inputs s = .ok s2 →
      nodupB s2 = true ∧ ∀ x ∈ s2, canonical x = true ∧ goodMember x = true
  | [], s, s2, hnd, hgood, _, h => by cases h; exact ⟨hnd, hgood⟩
  | i :: rest, s, s2, hnd, hgood, hin, h => by
    simp only [unionCollect] at h
    split at h
    · simp at h
    · next smid hco =>
      obtain ⟨h1, h2⟩ := collectOne_good hnd hgood (hin i (List.mem_cons_self i rest)) hco
      exact unionCollect_good rest smid s2 h1 h2
        (fun j hj => hin j (List.mem_cons_of_mem i hj)) h

theorem unionS_canonical {inputs : List RegexInput} {r : Regex}
    (hin : ∀ i ∈ inputs, ∀ x ∈ inputRegexes i, canonical x = true)
    (h : unionS inputs = .ok r) : canonical r = true := by
  unfold unionS at h
  cases hc : unionCollect inputs [] with
  | error e => rw [hc] at h; simp at h
  | ok s =>
    obtain ⟨hnd, hgood⟩ :=
      unionCollect_good inputs [] s rfl (by intro x hx; simp at hx) hin hc
    rw [hc] at h
    cases s with
    | nil => cases h; rfl
    | cons a t =>
      cases t with
      | nil =>
        replace h : Except.ok a = Except.ok r := h
        cases h
        exact (hgood _ (List.mem_cons_self _ [])).1
      | cons b t2 =>
        replace h : mkUnion (a :: b :: t2) = Except.ok r := h
        unfold mkUnion at h
        split at h
        · simp at h
        · cases h
          simp only [canonical, Bool.and_eq_true, List.all_eq_true]
          refine ⟨⟨⟨?_, ?_⟩, hnd⟩, ?_⟩
          · simp only [List.length_cons, decide_eq_true_eq]
            omega
          · intro x hx
            exact (hgood x hx).2
          · rw [canonList_iff]
            intro x hx
            exact (hgood x hx).1

theorem canonical_star {x : Regex} (hs : x.isStar = false) (hx : canonical x = true) :
    canonical (.StarRegex x) = true := by
  have : canonical (.StarRegex x) = (!x.isStar && canonical x) := rfl
  rw [this, hs, hx]
  rfl

theorem starS_canonical {i : RegexInput} {r : Regex}
    (hi : ∀ x ∈ inputRegexes i, canonical x = true) (h : starS i = .ok r) :
    canonical r = true := by
  cases i with
  | re x =>
    have hx : canonical x = true := hi x (by simp [inputRegexes])
    cases x with
    | EpsilonRegex => cases h; rfl
    | NullRegex => cases h; rfl
    | StarRegex y => cases h; exact hx
    | UnionRegex opts => cases h; exact canonical_star rfl hx
    | SymbolRegex t => cases h; exact canonical_star rfl hx
    | AnySymbolRegex => cases h; exact canonical_star rfl hx
    | ConcatRegex p q => cases h; exact canonical_star rfl hx
    | RepeatRegex y c => cases h; exact canonical_star rfl hx
  | str d syms =>
    simp only [starS] at h
    split at h
    · simp at h
    · next rr hre =>
      cases h
      exact canonical_star (regexify_str_shape hre).2
        (regexify_canonical (by simp [inputRegexes]) hre)
  | chr t => cases h; rfl
  | other => simp [starS, regexify] at h

theorem repeatS_canonical {x : Regex} {c : Int} {r : Regex}
    (hx : canonical x = true) (h : repeatS x c = .ok r) : canonical r = true := by
  unfold repeatS at h
  split at h
  · cases h; rfl
  · split at h
    · cases h; exact hx
    · split at h
      · cases h; rfl
      · split at h
        · cases h; rfl
        · unfold mkRepeat at h
          split at h
          · simp at h
          · next h2 =>
            cases h
            simp only [canonical, Bool.and_eq_true, decide_eq_true_eq]
            exact ⟨by omega, hx⟩

theorem repeatP_canonical {i : RegexInput} {c : Int} {r : Regex}
    (hi : ∀ x ∈ inputRegexes i, canonical x = true)
    (h : repeatP i c = .ok (.re r)) : canonical r = true := by
  unfold repeatP at h
  split at h
  · cases h; rfl
  · split at h
    · cases h
      exact hi _ (by simp [inputRegexes])
    · split at h
      · cases h; rfl
      · split at h
        · cases h; rfl
        · split at h
          · simp at h
          · next r0 hre =>
            unfold mkRepeat at h
            split at h
            · simp at h
            · next rep hrep =>
              cases h
              split at hrep
              · simp at hrep
              · next h2 =>
                cases hrep
                simp only [canonical, Bool.and_eq_true, decide_eq_true_eq]
                exact ⟨by omega, regexify_canonical hi hre⟩

mutual

theorem derive_canonical : ∀ (r : Regex) (a : Sym) (r2 : Regex),
    canonical r = true → derive r a = .ok r2 → canonical r2 = true
  | .NullRegex, _, _, _, h => by cases h; rfl
  | .EpsilonRegex, _, _, _, h => by cases h; rfl
  | .SymbolRegex t, a, r2, _, h => by
    simp only [derive] at h
    split at h <;> (cases h; rfl)
  | .AnySymbolRegex, _, _, _, h => by cases h; rfl
  | .UnionRegex l, a, r2, hc, h => by
    simp only [derive] at h
    split at h
    · simp at h
    · next ds hd =>
      have hcl : canonList l = true := by
        simp only [canonical, Bool.and_eq_true] at hc
        exact hc.2
      have hds := deriveList_canonical l a ds hcl hd
      refine unionS_canonical ?_ h
      intro i hi x hx
      rcases List.mem_map.mp hi with ⟨d, hdmem, rfl⟩
      simp only [inputRegexes, List.mem_singleton] at hx
      subst hx
      exact (canonList_iff ds).mp hds _ hdmem
  | .ConcatRegex p q, a, r2, hc, h => by
    have hcp : canonical p = true := by
      simp only [canonical, Bool.and_eq_true] at hc
      exact hc.1.2
    have hcq : canonical q = true := by
      simp only [canonical, Bool.and_eq_true] at hc
      exact hc.2
    simp only [derive] at h
    split at h
    · split at h
      · simp at h
      · next dp hdp =>
        split at h
        · simp at h
        · next c1 hcc =>
          split at h
          · simp at h
          · next dq hdq =>
            have h1 := derive_canonical p a dp hcp hdp
            have h2 := derive_canonical q a dq hcq hdq
            have h3 := concatR_canonical h1 hcq hcc
            refine unionS_canonical ?_ h
            intro i hi x hx
            simp only [List.mem_cons, List.mem_singleton] at hi
            rcases hi with rfl | rfl | hi
            · simp only [inputRegexes, List.mem_singleton] at hx
              subst hx
              exact h3
            · simp only [inputRegexes, List.mem_singleton] at hx
              subst hx
              exact h2
            · simp at hi
    · split at h
      · simp at h
      · next dp hdp =>
        exact concatR_canonical (derive_canonical p a dp hcp hdp) hcq h
  | .StarRegex s, a, r2, hc, h => by
    have hcs : canonical s = true := by
      simp only [canonical, Bool.and_eq_true] at hc
      exact hc.2
    simp only [derive] at h
    split at h
    · simp at h
    · next d hd =>
      exact concatR_canonical (derive_canonical s a d hcs hd) hc h
  | .RepeatRegex s c, a, r2, hc, h => by
    have hcs : canonical s = true := by
      simp only [canonical, Bool.and_eq_true] at hc
      exact hc.2
    simp only [derive] at h
    split at h
    · simp at h
    · next d hd =>
      split at h
      · simp at h
      · next rep hrep =>
        exact concatR_canonical (derive_canonical s a d hcs hd)
          (repeatS_canonical hcs hrep) h

theorem deriveList_canonical : ∀ (l : List Regex) (a : Sym) (ds : List Regex),
    canonList l = true → deriveList l a = .ok ds → canonList ds = true
  | [], _, _, _, h => by cases h; rfl
  | r :: rs, a, ds, hc, h => by
    simp only [deriveList] at h
    simp only [canonList, Bool.and_eq_true] at hc
    split at h
    · simp at h
    · next d hd =>
      split at h
      · simp at h
      · next ds2 hds =>
        cases h
        simp only [canonList, Bool.and_eq_true]
        exact ⟨derive_canonical r a d hc.1 hd, deriveList_canonical rs a ds2 hc.2 hds⟩

end

theorem produced_canonical_aux : ∀ {r : Regex}, Produced r → canonical r = true := by
  intro r h
  induction h with
  | sentinelNull => rfl
  | sentinelEpsilon => rfl
  | sentinelAny => rfl
  | ofRegexify i r hsub hok ih => exact regexify_canonical ih hok
  | ofUnion l r hsub hok ih => exact unionS_canonical ih hok
  | ofConcat a b r hs1 hs2 hok ih1 ih2 => exact concatS_canonical ih1 ih2 hok
  | ofJoin l r hsub hok ih => exact joinS_canonical l r ih hok
  | ofStar i r hsub hok ih => exact starS_canonical ih hok
  | ofRepeat i c r hsub hok ih => exact repeatP_canonical ih hok
  | ofDerive x a r hsub hok ih => exact derive_canonical x a r ih hok

/-! The union(R, R) computation, by case on the shape of R. -/

theorem collectOne_re_plain {s : List Regex} {R : Regex} (hu : R.isUnion = false) :
    collectOne s (.re R) = .ok (if R = Regex.NullRegex then s else setInsert s R) := by
  cases R <;> first | rfl | simp [Regex.isUnion] at hu

theorem unionS_self_pair {R : Regex} (hu : R.isUnion = false) (hn : R ≠ Regex.NullRegex) :
    unionS [.re R, .re R] = .ok R := by
  have h1 : collectOne [] (.re R) = .ok [R] := by
    rw [collectOne_re_plain hu, if_neg hn]
    rfl
  have h2 : collectOne [R] (.re R) = .ok [R] := by
    rw [collectOne_re_plain hu, if_neg hn]
    simp [setInsert]
  simp only [unionS, unionCollect, h1, h2]

theorem unionS_self_union {l : List Regex} (hnd : nodupB l = true) (hlen : 2 ≤ l.length)
    {al : Option Alphabet} (hscan : alphaScan l none = .ok al) :
    unionS [.re (.UnionRegex l), .re (.UnionRegex l)] = .ok (.UnionRegex l) := by
  obtain ⟨a, b, t, rfl⟩ : ∃ a b t, l = a :: b :: t := by
    cases l with
    | nil => simp at hlen
    | cons a t =>
      cases t with
      | nil => simp at hlen
      | cons b t2 => exact ⟨a, b, t2, rfl⟩
  have h0 : setUpdate [] (a :: b :: t) = a :: b :: t := by
    have hd := setUpdate_append (a :: b :: t) [] hnd (by intro x hx hc; simp at hc)
    simpa using hd
  have h1 : setUpdate (a :: b :: t) (a :: b :: t) = a :: b :: t :=
    setUpdate_of_subset _ _ (fun x hx => hx)
  have hc : unionCollect [.re (.UnionRegex (a :: b :: t)), .re (.UnionRegex (a :: b :: t))] []
      = .ok (a :: b :: t) := by
    simp only [unionCollect, collectOne, h0, h1]
  simp only [unionS, hc]
  show mkUnion (a :: b :: t) = .ok (.UnionRegex (a :: b :: t))
  unfold mkUnion
  rw [hscan]

/-! Concrete values used by the end-to-end claims. -/

/-- Regex("a"): the SymbolRegex for the text character "a" (codepoint 97). -/
def symA : Regex := .SymbolRegex ⟨.text, 97⟩

/-- Regex("b"). -/
def symB : Regex := .SymbolRegex ⟨.text, 98⟩

/-- Regex("c"). -/
def symC : Regex := .SymbolRegex ⟨.text, 99⟩

/-- The text symbol "a". -/
def tA : Sym := ⟨.text, 97⟩

/-- The text symbol "b". -/
def tB : Sym := ⟨.text, 98⟩

/-- union(Regex("a"), Epsilon): a nullable union. -/
def unionAEps : Regex := .UnionRegex [symA, .EpsilonRegex]

/-- concat(Any, Any): alphabet-independent, and neither of the Epsilon/Null sentinels. -/
def anyAny : Regex := .ConcatRegex .AnySymbolRegex .AnySymbolRegex

/-- union(concat(Any, Any), Regex("b")): a Text-alphabet regex whose derivative by any
symbol other than "b" is the alphabet-independent Any sentinel. -/
def unionAnyB : Regex := .UnionRegex [anyAny, symB]

/-- concat(union(concat(Any, Any), Regex("b")), Regex("c")): built successfully by the
public constructors, but whose derivative raises. -/
def bugConcat : Regex := .ConcatRegex unionAnyB symC

/-- union(Regex("a"), Regex("b")): a canonical two-option union. -/
def unionAB : Regex := .UnionRegex [symA, symB]

/-! Claim theorems. -/

/-- C1: for every regex R and every input symbol sequence, R.match agrees exactly with
the non-short-circuited reference fold that derives by every symbol in order and then
tests accepts_empty_string; the matcher's early return of False at the Null sentinel
never changes the result, because Null.derive(a) is Null for every symbol a. -/
theorem c1_match_equals_reference_fold :
    (∀ (r : Regex) (s : List Sym), matchRe r s = matchFold r s) ∧
    (∀ a : Sym, derive Regex.NullRegex a = .ok Regex.NullRegex) :=
  ⟨fun r s => matchRe_eq_matchFold s r, fun _ => rfl⟩

/-- C2: REFUTED by the code. The value concat(union(concat(Any, Any), Regex("b")),
Regex("c")) is built successfully by the public constructors, yet deriving it by the
symbol "a" raises the alphabet-mismatch TypeError: the derivative of the union part is
the alphabet-independent Any, and ConcatRegex.__init__ raises whenever exactly one
operand has a concrete alphabet (contradicting its own comment, which says one
concrete and one independent operand should combine fine). -/
theorem c2_derive_raises_on_constructed_value :
    concatS (.re .AnySymbolRegex) (.re .AnySymbolRegex) = .ok anyAny ∧
    unionS [.re anyAny, .re symB] = .ok unionAnyB ∧
    concatS (.re unionAnyB) (.re symC) = .ok bugConcat ∧
    derive bugConcat tA = .error .alphabetMismatch := by decide

/-- C3: every value reachable through the public constructors (on inputs whose regex
components are themselves reachable, including plain strings such as the empty
string) or through derivation satisfies the canonical-form invariant at every node:
unions have at least two options with no duplicate, union, or Null member;
concatenations have neither Epsilon nor Null operands; a star's inner regex is not a
star; a repetition's count is at least 2. -/
theorem c3_produced_values_canonical (r : Regex) (h : Produced r) : canonical r = true :=
  produced_canonical_aux h

/-- C3 witness: union(Regex("a"), Epsilon) is produced by the constructors and is
canonical. -/
theorem c3_produced_values_canonical_witness :
    Produced (Regex.UnionRegex [symA, Regex.EpsilonRegex]) ∧
      canonical (Regex.UnionRegex [symA, Regex.EpsilonRegex]) = true := by
  have hA : Produced symA :=
    Produced.ofRegexify (.chr ⟨.text, 97⟩) symA
      (by intro x hx; simp [inputRegexes] at hx) rfl
  have hp : Produced (Regex.UnionRegex [symA, Regex.EpsilonRegex]) := by
    refine Produced.ofUnion [.re symA, .re .EpsilonRegex] _ ?_ (by decide)
    intro i hi x hx
    simp only [List.mem_cons, List.mem_singleton] at hi
    rcases hi with rfl | rfl | hi
    · simp only [inputRegexes, List.mem_singleton] at hx
      subst hx
      exact hA
    · simp only [inputRegexes, List.mem_singleton] at hx
      subst hx
      exact Produced.sentinelEpsilon
    · simp at hi
  exact ⟨hp, c3_produced_values_canonical _ hp⟩

/-- C4 counterexample: for the canonical union R = union(Regex("a"), Regex("b")),
union(R, R) takes the final UnionRegex(s) branch (unionFresh), which in the source
constructs a brand-new object; the result is structurally equal to R but is not the
very same value, refuting the identity-equality part of the claim for Union inputs. -/
theorem c4_union_self_fresh_allocation :
    unionFresh [.re unionAB, .re unionAB] = true ∧
    unionS [.re unionAB, .re unionAB] = .ok unionAB := by decide

/-- C4 (amended): for every regex R that is set-like where it must be (if R is a
union, its option list is duplicate-free with at least two members and passes the
alphabet scan), union(R, R) returns a value structurally equal to R after the
duplicate is discarded. The result is the identical object only when R is not a
union: for a union the UnionRegex(s) branch allocates a fresh structurally-equal
value. -/
theorem c4_union_self_structural (R : Regex)
    (h : ∀ l, R = Regex.UnionRegex l →
      nodupB l = true ∧ 2 ≤ l.length ∧ ∃ al, alphaScan l none = .ok al) :
    unionS [.re R, .re R] = .ok R := by
  cases R with
  | UnionRegex l =>
    obtain ⟨hnd, hlen, al, hscan⟩ := h l rfl
    exact unionS_self_union hnd hlen hscan
  | NullRegex => decide
  | EpsilonRegex => exact unionS_self_pair rfl (by simp)
  | SymbolRegex t => exact unionS_self_pair rfl (by simp)
  | AnySymbolRegex => exact unionS_self_pair rfl (by simp)
  | ConcatRegex p q => exact unionS_self_pair rfl (by simp)
  | StarRegex y => exact unionS_self_pair rfl (by simp)
  | RepeatRegex y c => exact unionS_self_pair rfl (by simp)

/-- C4 witness: the amended statement applied to the union union(Regex("c"), Regex("b")). -/
theorem c4_union_self_structural_witness :
    unionS [.re (Regex.UnionRegex [symC, symB]), .re (Regex.UnionRegex [symC, symB])] =
      .ok (Regex.UnionRegex [symC, symB]) := by
  refine c4_union_self_structural (Regex.UnionRegex [symC, symB]) ?_
  intro l hl
  injection hl with hl2
  subst hl2
  exact ⟨by decide, by decide, some .text, by decide⟩

/-- C5: REFUTED by the code under Python 3 symbol semantics. For the byte string
b"ab" (symbols are the ints 97 and 98 on Python 3), regexify builds
Concat(Symbol(97), Symbol(98)), and ConcatRegex.literal computes
prefix.literal + suffix.literal with integer addition: the result is the int 195,
not the byte sequence b"ab". -/
theorem c5_bytes_literal_int_sum :
    regexify (.str .bytes [97, 98]) =
      .ok (.ConcatRegex (.SymbolRegex ⟨.bytes, 97⟩) (.SymbolRegex ⟨.bytes, 98⟩)) ∧
    literal (.ConcatRegex (.SymbolRegex ⟨.bytes, 97⟩) (.SymbolRegex ⟨.bytes, 98⟩)) =
      some (.byte 195) ∧
    some (Lit.byte 195) ≠ some (Lit.bytestr [97, 98]) := by decide

/-- C6 counterexample: the Epsilon sentinel's literal is not the empty symbol
sequence (neither the empty text string nor the empty byte string). -/
theorem c6_epsilon_literal_not_empty_string :
    literal Regex.EpsilonRegex ≠ some (Lit.text []) ∧
    literal Regex.EpsilonRegex ≠ some (Lit.bytestr []) := by decide

/-- C6 (amended): EpsilonRegex does not override the literal property, so Epsilon's
literal is None (the base Regex.literal), not the empty symbol sequence. -/
theorem c6_epsilon_literal_none : literal Regex.EpsilonRegex = none := by decide

/-- C7 counterexample: repeat(Regex("a"), -1) reaches the low-level RepeatRegex
constructor (count is neither 0 nor 1 and the regex is neither Epsilon nor Null) and
raises the invalid-repeat-count ValueError through the public entry point. -/
theorem c7_negative_count_raises :
    repeatS symA (-1) = .error .invalidRepeatCount := by decide

/-- C7 (amended): for every regex R and every non-negative count, the public
repeat(R, count) never raises the invalid-repeat-count error; a negative count,
however, does reach the low-level constructor's check and raises. -/
theorem c7_repeat_nonneg_no_error (R : Regex) (c : Int) (h : 0 ≤ c) :
    ∃ r, repeatS R c = .ok r := by
  unfold repeatS mkRepeat
  split_ifs with h0 h1 he hn h2 <;> first | exact ⟨_, rfl⟩ | (exfalso; omega)

/-- C7 witness: repeat(Regex("a"), 3) succeeds. -/
theorem c7_repeat_nonneg_no_error_witness :
    (0 : Int) ≤ 3 ∧ ∃ r, repeatS symA 3 = .ok r :=
  ⟨by decide, c7_repeat_nonneg_no_error symA 3 (by decide)⟩

/-- C8: REFUTED by the code for concat. Any is alphabet-independent, yet
concat(Any, Regex("a")) raises the alphabet-mismatch TypeError, because
ConcatRegex.__init__ raises whenever exactly one operand has a concrete alphabet —
contradicting its own comment; union handles the same combination fine. -/
theorem c8_concat_independent_raises :
    alphabet Regex.AnySymbolRegex = none ∧
    concatS (.re .AnySymbolRegex) (.re symA) = .error .alphabetMismatch ∧
    unionS [.re .AnySymbolRegex, .re symA] = .ok (.UnionRegex [.AnySymbolRegex, symA]) := by
  decide

/-- C9: with R = repeat(Regex("a"), 3): R.derive("a").derive("a") is structurally
equal to Regex("a"); deriving that result once more by "a" yields Epsilon; and
deriving R by "b" yields Null. -/
theorem c9_repeat_derivation_chain :
    regexify (.str .text [97]) = .ok symA ∧
    repeatS symA 3 = .ok (.RepeatRegex symA 3) ∧
    derive (.RepeatRegex symA 3) tA = .ok (.RepeatRegex symA 2) ∧
    derive (.RepeatRegex symA 2) tA = .ok symA ∧
    derive symA tA = .ok .EpsilonRegex ∧
    derive (.RepeatRegex symA 3) tB = .ok .NullRegex := by decide

/-- C10: a Repeat value reports accepts_empty_string as false unconditionally, even
when its inner regex accepts the empty string; consequently, with
R = union(Regex("a"), Epsilon), repeat(R, 2) rejects the empty sequence while
concat(R, R) accepts it, so repeat is not language-equivalent to n-fold
concatenation. -/
theorem c10_repeat_not_nfold_concat :
    (∀ (r : Regex) (c : Nat), aes (.RepeatRegex r c) = false) ∧
    unionS [.re symA, .re .EpsilonRegex] = .ok unionAEps ∧
    aes unionAEps = true ∧
    repeatS unionAEps 2 = .ok (.RepeatRegex unionAEps 2) ∧
    matchRe (.RepeatRegex unionAEps 2) [] = .ok false ∧
    concatS (.re unionAEps) (.re unionAEps) = .ok (.ConcatRegex unionAEps unionAEps) ∧
    matchRe (.ConcatRegex unionAEps unionAEps) [] = .ok true :=
  ⟨fun _ _ => rfl, by decide⟩

end Lexington
